import Mathlib

/-!
Verification of the user-registration validation flow in `src/main.rs`.

The Rust source is shallowly embedded: each Rust function becomes a Lean
definition over explicit data; the `anyhow` error values (which are bare
message strings in the source) are modelled by a closed enumeration `Err`
together with their message texts; `Result<T>` becomes `Except Err T`;
the single `&mut User` operation (`grant_user`) is modelled by explicit
state passing, returning the result together with the (possibly updated)
user. Machine integer `i32` is modelled by `Int`: `check_age` only
compares its argument against small constants, so no overflow can occur.
-/

/-- Wrapper for a syntactically validated email string (`struct Email(String)`). -/
structure Email where
  val : String
deriving DecidableEq, Repr

/-- `struct VerifiedEmail(Email)`. -/
structure VerifiedEmail where
  email : Email
deriving DecidableEq, Repr

/-- `struct UnverifiedEmail(Email)`. -/
structure UnverifiedEmail where
  email : Email
deriving DecidableEq, Repr

/-- `struct Age(i32)`. -/
structure Age where
  val : Int
deriving DecidableEq, Repr

/-- `enum UserEmail { VerifiedEmail(VerifiedEmail), UnverifiedEmail(UnverifiedEmail) }`. -/
inductive UserEmail where
  | VerifiedEmail : VerifiedEmail → UserEmail
  | UnverifiedEmail : UnverifiedEmail → UserEmail
deriving DecidableEq, Repr

/-- The `User` aggregate record. -/
structure User where
  name : String
  middle_name : Option String
  surname : String
  age : Age
  email : UserEmail
deriving DecidableEq, Repr

/-- Closed taxonomy of the error values produced in the source
(`anyhow::Error::msg` with fixed message strings). -/
inductive Err where
  | NegativeAge
  | UnderageUser
  | ImplausibleAge
  | InvalidEmailFormat
  | NotYetVerified
deriving DecidableEq, Repr

/-- The message string each error kind carries in the source. -/
def Err.message : Err → String
  | .NegativeAge => "Age cannot be negative"
  | .UnderageUser => "Sorry but this service is unavailable for minor of 13 years old"
  | .ImplausibleAge => "I don't think you can be immortal"
  | .InvalidEmailFormat => "Invalid email"
  | .NotYetVerified => "Email has not been verified yet"

/-- `User::new`: constructs a `User`, always storing the email in the
`UnverifiedEmail` variant. -/
def User.new (name : String) (middle_name : Option String) (surname : String)
    (age : Age) (email : Email) : User :=
  { name := name
    middle_name := middle_name
    surname := surname
    age := age
    email := UserEmail.UnverifiedEmail ⟨email⟩ }

/-- `check_age`: guards tried in source order (`x < 0`, then `x < 13`,
then `x > 120`, else `Ok(Age(age))`). -/
def check_age (age : Int) : Except Err Age :=
  if age < 0 then .error .NegativeAge
  else if age < 13 then .error .UnderageUser
  else if age > 120 then .error .ImplausibleAge
  else .ok ⟨age⟩

/-- C1: `check_age` fails with `NegativeAge` iff the input is negative,
with `UnderageUser` iff it lies in `[0, 13)`, with `ImplausibleAge` iff it
exceeds 120, and succeeds returning `Age(a)` iff it lies in `[13, 120]`;
in particular a negative input always reports `NegativeAge`, never
`UnderageUser`, since the negative guard is tried first. -/
theorem check_age_spec (a : Int) :
    (check_age a = .error .NegativeAge ↔ a < 0) ∧
    (check_age a = .error .UnderageUser ↔ 0 ≤ a ∧ a < 13) ∧
    (check_age a = .error .ImplausibleAge ↔ a > 120) ∧
    (check_age a = .ok ⟨a⟩ ↔ 13 ≤ a ∧ a ≤ 120) := by
  unfold check_age
  split_ifs with h1 h2 h3 <;>
    refine ⟨?_, ?_, ?_, ?_⟩ <;> simp_all <;> omega

/-! ## Email syntax: the regex of `check_email`, `^[\w.]+@[\w.]+\.\w+$`

The `\w` class of the source's regex is modelled over its ASCII fragment
`[0-9A-Za-z_]`. A match of the anchored pattern is exactly a decomposition
of the string into a nonempty block of word-or-dot characters, `@`, a
nonempty block of word-or-dot characters, `.`, and a nonempty block of
word characters. None of the three blocks may contain `@`, so a matching
string contains a unique `@`; the final block may not contain `.`, so the
separator dot is the last dot after the `@`. The executable matcher
`emailRegexAccepts` uses those two facts; `emailRegex_correct` proves it
equivalent to the declarative pattern language `EmailPattern`. -/

def isWordChar (c : Char) : Bool := c.isAlphanum || c == '_'

def isWordOrDot (c : Char) : Bool := isWordChar c || c == '.'

/-- Split a list at the first occurrence of `c`. -/
def splitAtFirst (c : Char) : List Char → Option (List Char × List Char)
  | [] => none
  | x :: xs =>
    if x = c then some ([], xs)
    else (splitAtFirst c xs).map fun p => (x :: p.1, p.2)

/-- Split a list at the last occurrence of `c`. -/
def splitAtLast (c : Char) (s : List Char) : Option (List Char × List Char) :=
  (splitAtFirst c s.reverse).map fun p => (p.2.reverse, p.1.reverse)

/-- Executable matcher for the anchored pattern `^[\w.]+@[\w.]+\.\w+$`. -/
def emailRegexAccepts (s : String) : Bool :=
  match splitAtFirst '@' s.data with
  | none => false
  | some (lp, rest) =>
    match splitAtLast '.' rest with
    | none => false
    | some (dom, tld) =>
      !lp.isEmpty && lp.all isWordOrDot &&
      !dom.isEmpty && dom.all isWordOrDot &&
      !tld.isEmpty && tld.all isWordChar

/-- The language of the pattern, stated declaratively: one-or-more
word-or-dot characters, `@`, one-or-more word-or-dot characters, `.`,
one-or-more word characters, covering the entire string. -/
def EmailPattern (s : String) : Prop :=
  ∃ a b c : List Char,
    s.data = a ++ '@' :: (b ++ '.' :: c) ∧
    a ≠ [] ∧ (∀ x ∈ a, isWordOrDot x) ∧
    b ≠ [] ∧ (∀ x ∈ b, isWordOrDot x) ∧
    c ≠ [] ∧ (∀ x ∈ c, isWordChar x)

theorem splitAtFirst_eq_some (c : Char) :
    ∀ s a b : List Char, splitAtFirst c s = some (a, b) ↔ s = a ++ c :: b ∧ c ∉ a := by
  intro s
  induction s with
  | nil =>
    intro a b
    constructor
    · intro h; simp [splitAtFirst] at h
    · rintro ⟨h, -⟩
      exact absurd h (by simp)
  | cons x xs ih =>
    intro a b
    by_cases hx : x = c
    · subst hx
      simp only [splitAtFirst, if_pos rfl, Option.some.injEq, Prod.mk.injEq]
      constructor
      · rintro ⟨rfl, rfl⟩
        simp
      · rintro ⟨heq, hna⟩
        cases a with
        | nil =>
          simp only [List.nil_append, List.cons.injEq] at heq
          simp_all
        | cons y t =>
          simp only [List.cons_append, List.cons.injEq] at heq
          exact absurd (heq.1 ▸ List.mem_cons_self y t) hna
    · simp only [splitAtFirst, if_neg hx, Option.map_eq_some']
      constructor
      · rintro ⟨⟨a', b'⟩, hsp, heq⟩
        rcases (ih a' b').mp hsp with ⟨rfl, hna⟩
        simp only [Prod.mk.injEq] at heq
        rcases heq with ⟨rfl, rfl⟩
        refine ⟨rfl, ?_⟩
        simp only [List.mem_cons, not_or]
        exact ⟨fun h => hx h.symm, hna⟩
      · rintro ⟨heq, hna⟩
        cases a with
        | nil =>
          simp only [List.nil_append, List.cons.injEq] at heq
          exact absurd heq.1 hx
        | cons y t =>
          simp only [List.cons_append, List.cons.injEq] at heq
          rcases heq with ⟨rfl, rfl⟩
          simp only [List.mem_cons, not_or] at hna
          exact ⟨(t, b), (ih t b).mpr ⟨rfl, hna.2⟩, rfl⟩

theorem splitAtLast_eq_some (c : Char) (s a b : List Char) :
    splitAtLast c s = some (a, b) ↔ s = a ++ c :: b ∧ c ∉ b := by
  unfold splitAtLast
  simp only [Option.map_eq_some']
  constructor
  · rintro ⟨⟨a', b'⟩, hsp, heq⟩
    rcases (splitAtFirst_eq_some c s.reverse a' b').mp hsp with ⟨hrev, hna⟩
    simp only [Prod.mk.injEq] at heq
    rcases heq with ⟨rfl, rfl⟩
    constructor
    · have := congrArg List.reverse hrev
      simpa using this
    · simpa using hna
  · rintro ⟨rfl, hnb⟩
    refine ⟨(b.reverse, a.reverse), ?_, by simp⟩
    refine (splitAtFirst_eq_some c _ _ _).mpr ⟨by simp, by simpa using hnb⟩

theorem emailRegex_correct (s : String) :
    emailRegexAccepts s = true ↔ EmailPattern s := by
  constructor
  · intro h
    unfold emailRegexAccepts at h
    cases h1 : splitAtFirst '@' s.data with
    | none => rw [h1] at h; simp at h
    | some p =>
      obtain ⟨lp, rest⟩ := p
      rw [h1] at h
      dsimp only at h
      cases h2 : splitAtLast '.' rest with
      | none => rw [h2] at h; simp at h
      | some q =>
        obtain ⟨dom, tld⟩ := q
        rw [h2] at h
        dsimp only at h
        simp only [Bool.and_eq_true, Bool.not_eq_true', List.isEmpty_eq_false,
          List.all_eq_true, decide_eq_true_eq] at h
        obtain ⟨⟨⟨⟨⟨hlp, hlpw⟩, hdom⟩, hdomw⟩, htld⟩, htldw⟩ := h
        obtain ⟨hs, -⟩ := (splitAtFirst_eq_some '@' s.data lp rest).mp h1
        obtain ⟨hr, -⟩ := (splitAtLast_eq_some '.' rest dom tld).mp h2
        exact ⟨lp, dom, tld, by rw [hs, hr], hlp, hlpw, hdom, hdomw, htld, htldw⟩
  · rintro ⟨a, b, c, hs, ha, hwa, hb, hwb, hc, hwc⟩
    have h1 : splitAtFirst '@' s.data = some (a, b ++ '.' :: c) := by
      refine (splitAtFirst_eq_some '@' s.data a (b ++ '.' :: c)).mpr ⟨hs, ?_⟩
      intro hm
      have := hwa '@' hm
      simp [isWordOrDot, isWordChar, Char.isAlphanum, Char.isAlpha,
        Char.isUpper, Char.isLower, Char.isDigit] at this
    have h2 : splitAtLast '.' (b ++ '.' :: c) = some (b, c) := by
      refine (splitAtLast_eq_some '.' (b ++ '.' :: c) b c).mpr ⟨rfl, ?_⟩
      intro hm
      have := hwc '.' hm
      simp [isWordChar, Char.isAlphanum, Char.isAlpha,
        Char.isUpper, Char.isLower, Char.isDigit] at this
    unfold emailRegexAccepts
    rw [h1]
    dsimp only
    rw [h2]
    dsimp only
    simp only [Bool.and_eq_true, Bool.not_eq_true', List.isEmpty_eq_false,
      List.all_eq_true, decide_eq_true_eq]
    exact ⟨⟨⟨⟨⟨ha, hwa⟩, hb⟩, hwb⟩, hc⟩, hwc⟩

/-- `check_email`: tests the input string against the regex
`^[\w.]+@[\w.]+\.\w+$`; on a match the input is wrapped unchanged as an
`Email`, otherwise the `InvalidEmailFormat` error is returned. -/
def check_email (email : String) : Except Err Email :=
  if emailRegexAccepts email then .ok ⟨email⟩ else .error .InvalidEmailFormat

/-- C2: for every string matching the email pattern (one-or-more
word-or-dot characters, `@`, one-or-more word-or-dot characters, `.`,
one-or-more word characters, anchored to the whole string), `check_email`
succeeds returning the input string unchanged as the `Email` content; for
every non-matching string it fails with `InvalidEmailFormat`. -/
theorem check_email_spec (s : String) :
    (EmailPattern s → check_email s = .ok ⟨s⟩) ∧
    (¬ EmailPattern s → check_email s = .error .InvalidEmailFormat) := by
  unfold check_email
  constructor
  · intro hp
    rw [if_pos ((emailRegex_correct s).mpr hp)]
  · intro hp
    rw [if_neg (fun hb => hp ((emailRegex_correct s).mp hb))]

/-- Witness for C2 at concrete inputs. -/
theorem check_email_spec_witness :
    check_email "a@b.cd" = .ok ⟨"a@b.cd"⟩ ∧
    check_email "foo.at.com" = .error .InvalidEmailFormat :=
  ⟨(check_email_spec "a@b.cd").1
      ⟨['a'], ['b'], ['c', 'd'], by decide, by decide, by decide,
        by decide, by decide, by decide, by decide⟩,
   (check_email_spec "foo.at.com").2
      (fun hp => absurd ((emailRegex_correct "foo.at.com").mpr hp) (by decide))⟩

/-! ## Email verification: `verify_email` and its placeholder policy -/

/-- Does the list start with the two characters `'o'`, `'k'`? -/
def startsWithOk : List Char → Bool
  | x :: y :: _ => x == 'o' && y == 'k'
  | _ => false

/-- Executable substring test for the literal `"ok"`, modelling Rust's
`str::contains("ok")`. -/
def hasSubstrOk : List Char → Bool
  | [] => false
  | x :: xs => startsWithOk (x :: xs) || hasSubstrOk xs

/-- The string contains the literal substring `"ok"`. -/
def ContainsOk (s : String) : Prop :=
  ∃ pre post : List Char, s.data = pre ++ 'o' :: 'k' :: post

theorem startsWithOk_iff (l : List Char) :
    startsWithOk l = true ↔ ∃ t, l = 'o' :: 'k' :: t := by
  rcases l with - | ⟨x, - | ⟨y, t⟩⟩
  · simp [startsWithOk]
  · simp [startsWithOk]
  · simp only [startsWithOk, Bool.and_eq_true, beq_iff_eq]
    constructor
    · rintro ⟨rfl, rfl⟩; exact ⟨t, rfl⟩
    · rintro ⟨t', ht⟩
      simp only [List.cons.injEq] at ht
      exact ⟨ht.1, ht.2.1⟩

theorem hasSubstrOk_iff (l : List Char) :
    hasSubstrOk l = true ↔ ∃ pre post, l = pre ++ 'o' :: 'k' :: post := by
  induction l with
  | nil =>
    constructor
    · intro h
      simp [hasSubstrOk] at h
    · rintro ⟨pre, post, h⟩
      exact absurd h (by simp)
  | cons x xs ih =>
    simp only [hasSubstrOk, Bool.or_eq_true, startsWithOk_iff, ih]
    constructor
    · rintro (⟨t, ht⟩ | ⟨pre, post, hp⟩)
      · exact ⟨[], t, ht⟩
      · exact ⟨x :: pre, post, by rw [hp, List.cons_append]⟩
    · rintro ⟨pre, post, hp⟩
      cases pre with
      | nil =>
        simp only [List.nil_append] at hp
        exact Or.inl ⟨post, hp⟩
      | cons z pre' =>
        simp only [List.cons_append, List.cons.injEq] at hp
        exact Or.inr ⟨pre', post, hp.2⟩

/-- `verify_email`: succeeds iff the wrapped email string contains the
substring `"ok"`; on success returns a `VerifiedEmail` wrapping a clone of
the same string; otherwise fails with `NotYetVerified`. -/
def verify_email (email : UnverifiedEmail) : Except Err VerifiedEmail :=
  if hasSubstrOk email.email.val.data then .ok ⟨⟨email.email.val⟩⟩
  else .error .NotYetVerified

/-- C3: `verify_email` is a function of the email's string content that
succeeds iff the content contains the literal substring `"ok"`; on success
the returned `VerifiedEmail` wraps exactly the input's string content,
unchanged; on failure it returns the `NotYetVerified` error. -/
theorem verify_email_spec (ue : UnverifiedEmail) :
    (verify_email ue = .ok ⟨⟨ue.email.val⟩⟩ ↔ ContainsOk ue.email.val) ∧
    (verify_email ue = .error .NotYetVerified ↔ ¬ ContainsOk ue.email.val) ∧
    (∀ ve : VerifiedEmail, verify_email ue = .ok ve → ve.email.val = ue.email.val) := by
  unfold verify_email
  by_cases h : hasSubstrOk ue.email.val.data = true
  · have hc : ContainsOk ue.email.val := (hasSubstrOk_iff _).mp h
    rw [if_pos h]
    refine ⟨by simp [hc], by simp [hc], ?_⟩
    rintro ve hve
    simp only [Except.ok.injEq] at hve
    rw [← hve]
  · have hc : ¬ ContainsOk ue.email.val := fun hco => h ((hasSubstrOk_iff _).mpr hco)
    rw [if_neg h]
    exact ⟨by simp [hc], by simp [hc], by rintro ve hve; simp at hve⟩

/-- Witness for C3 at concrete inputs. -/
theorem verify_email_spec_witness :
    verify_email ⟨⟨"foo@ok.com"⟩⟩ = .ok ⟨⟨"foo@ok.com"⟩⟩ ∧
    verify_email ⟨⟨"foo@unverified.com"⟩⟩ = .error .NotYetVerified :=
  ⟨(verify_email_spec ⟨⟨"foo@ok.com"⟩⟩).1.mpr
      ⟨['f', 'o', 'o', '@'], ['.', 'c', 'o', 'm'], by decide⟩,
   (verify_email_spec ⟨⟨"foo@unverified.com"⟩⟩).2.1.mpr
      (fun hco => absurd ((hasSubstrOk_iff _).mpr hco) (by decide))⟩

/-! ## User construction: `create_user` -/

/-- `create_user`: `check_age(age)?`, then `check_email(email)?`, then
`User::new`; each `?` propagates the error to the caller unchanged. -/
def create_user (email : String) (age : Int) (name : String) (surname : String)
    (middle_name : Option String) : Except Err User :=
  match check_age age with
  | .error e => .error e
  | .ok age =>
    match check_email email with
    | .error e => .error e
    | .ok email => .ok (User.new name middle_name surname age email)

theorem create_user_age_err (email : String) (age : Int) (name surname : String)
    (middle_name : Option String) (e : Err) (h : check_age age = .error e) :
    create_user email age name surname middle_name = .error e := by
  unfold create_user
  rw [h]

theorem create_user_email_err (email : String) (age : Int) (name surname : String)
    (middle_name : Option String) (a : Age) (e : Err)
    (ha : check_age age = .ok a) (he : check_email email = .error e) :
    create_user email age name surname middle_name = .error e := by
  unfold create_user
  rw [ha]
  dsimp only
  rw [he]

theorem create_user_ok_iff (email : String) (age : Int) (name surname : String)
    (middle_name : Option String) (u : User) :
    create_user email age name surname middle_name = .ok u ↔
      ∃ (a : Age) (e : Email), check_age age = .ok a ∧ check_email email = .ok e ∧
        u = User.new name middle_name surname a e := by
  unfold create_user
  cases ha : check_age age with
  | error ea =>
    dsimp only
    constructor
    · intro h; simp at h
    · rintro ⟨a, e, haa, -, -⟩
      simp at haa
  | ok a =>
    dsimp only
    cases he : check_email email with
    | error ee =>
      dsimp only
      constructor
      · intro h; simp at h
      · rintro ⟨a', e', -, hee, -⟩
        simp at hee
    | ok e =>
      dsimp only
      constructor
      · intro h
        simp only [Except.ok.injEq] at h
        exact ⟨a, e, rfl, rfl, h.symm⟩
      · rintro ⟨a', e', haa, hee, rfl⟩
        simp only [Except.ok.injEq] at haa hee
        rw [haa, hee]

/-- C4: `create_user` validates age first and email syntax second,
short-circuiting on the first failure — an age error is reported even when
the email is also invalid, an email error is reported only once the age
check passed — and construction is atomic: it returns `ok u` exactly when
both validators pass and `u` is `User::new` of the validated values. -/
theorem create_user_spec :
    (∀ (email : String) (age : Int) (name surname : String)
        (middle_name : Option String) (e : Err),
        check_age age = .error e →
        create_user email age name surname middle_name = .error e) ∧
    (∀ (email : String) (age : Int) (name surname : String)
        (middle_name : Option String) (a : Age) (e : Err),
        check_age age = .ok a → check_email email = .error e →
        create_user email age name surname middle_name = .error e) ∧
    (∀ (email : String) (age : Int) (name surname : String)
        (middle_name : Option String) (u : User),
        create_user email age name surname middle_name = .ok u ↔
          ∃ (a : Age) (em : Email), check_age age = .ok a ∧ check_email email = .ok em ∧
            u = User.new name middle_name surname a em) :=
  ⟨fun email age name surname middle_name e h =>
      create_user_age_err email age name surname middle_name e h,
   fun email age name surname middle_name a e ha he =>
      create_user_email_err email age name surname middle_name a e ha he,
   fun email age name surname middle_name u =>
      create_user_ok_iff email age name surname middle_name u⟩

/-- Witness for C4: age `-100` with an invalid email reports the age error
`NegativeAge`; a valid age with invalid email `"foo.at.com"` reports
`InvalidEmailFormat`; the sample inputs produce exactly the freshly built
user. -/
theorem create_user_spec_witness :
    create_user "foo.at.com" (-100) "Luca" "Rossi" none = .error .NegativeAge ∧
    create_user "foo.at.com" 22 "Luca" "Rossi" none = .error .InvalidEmailFormat ∧
    create_user "foo@ok.com" 22 "Luca" "Rossi" none =
      .ok (User.new "Luca" none "Rossi" ⟨22⟩ ⟨"foo@ok.com"⟩) :=
  ⟨create_user_spec.1 "foo.at.com" (-100) "Luca" "Rossi" none .NegativeAge rfl,
   create_user_spec.2.1 "foo.at.com" 22 "Luca" "Rossi" none ⟨22⟩ .InvalidEmailFormat
      rfl rfl,
   (create_user_spec.2.2 "foo@ok.com" 22 "Luca" "Rossi" none
      (User.new "Luca" none "Rossi" ⟨22⟩ ⟨"foo@ok.com"⟩)).mpr
      ⟨⟨22⟩, ⟨"foo@ok.com"⟩, rfl, rfl, rfl⟩⟩

/-- C5: every `User` produced by `create_user` — and more generally every
value built by `User::new` — has its `email` field in the `UnverifiedEmail`
variant, even when the email string contains `"ok"` and would pass
verification. -/
theorem create_user_starts_unverified :
    (∀ (name : String) (middle_name : Option String) (surname : String)
        (a : Age) (e : Email),
        (User.new name middle_name surname a e).email = UserEmail.UnverifiedEmail ⟨e⟩) ∧
    (∀ (email : String) (age : Int) (name surname : String)
        (middle_name : Option String) (u : User),
        create_user email age name surname middle_name = .ok u →
        ∃ e : Email, e.val = email ∧ u.email = UserEmail.UnverifiedEmail ⟨e⟩) := by
  refine ⟨fun name middle_name surname a e => rfl, ?_⟩
  intro email age name surname middle_name u h
  obtain ⟨a, e, -, he, rfl⟩ := (create_user_ok_iff email age name surname middle_name u).mp h
  refine ⟨e, ?_, rfl⟩
  unfold check_email at he
  split at he
  · simp only [Except.ok.injEq] at he
    rw [← he]
  · simp at he

/-- Witness for C5: the sample construction with an email that contains
`"ok"` still yields an unverified email. -/
theorem create_user_starts_unverified_witness :
    ∃ e : Email, e.val = "foo@ok.com" ∧
      (User.new "Luca" none "Rossi" ⟨22⟩ ⟨"foo@ok.com"⟩).email
        = UserEmail.UnverifiedEmail ⟨e⟩ :=
  create_user_starts_unverified.2 "foo@ok.com" 22 "Luca" "Rossi" none
    (User.new "Luca" none "Rossi" ⟨22⟩ ⟨"foo@ok.com"⟩) rfl

/-! ## Grant (verification promotion): `grant_user`

The Rust function takes `&mut User`; the embedding passes the state
explicitly and returns the `Result<()>` together with the user after the
call. The `?` on `verify_email` returns the error before the assignment
to `user.email`, so on failure the user is returned untouched. -/

/-- `grant_user`: if the email is `UnverifiedEmail`, runs `verify_email`
and on success replaces the email field with the `VerifiedEmail` variant;
a user whose email is already `VerifiedEmail` is untouched and the call
succeeds. -/
def grant_user (user : User) : Except Err Unit × User :=
  match user.email with
  | UserEmail.UnverifiedEmail unverified_email =>
    match verify_email unverified_email with
    | .error e => (.error e, user)
    | .ok verified_email =>
      (.ok (), { user with email := UserEmail.VerifiedEmail verified_email })
  | UserEmail.VerifiedEmail _ => (.ok (), user)

theorem grant_user_of_verified (u : User) (v : VerifiedEmail)
    (h : u.email = UserEmail.VerifiedEmail v) : grant_user u = (.ok (), u) := by
  unfold grant_user
  rw [h]

theorem grant_user_of_unverified_ok (u : User) (ue : UnverifiedEmail) (ve : VerifiedEmail)
    (h : u.email = UserEmail.UnverifiedEmail ue) (hv : verify_email ue = .ok ve) :
    grant_user u = (.ok (), { u with email := UserEmail.VerifiedEmail ve }) := by
  unfold grant_user
  rw [h]
  dsimp only
  rw [hv]

theorem grant_user_of_unverified_err (u : User) (ue : UnverifiedEmail) (e : Err)
    (h : u.email = UserEmail.UnverifiedEmail ue) (hv : verify_email ue = .error e) :
    grant_user u = (.error e, u) := by
  unfold grant_user
  rw [h]
  dsimp only
  rw [hv]

/-- C6: `grant_user` is idempotent — on a user whose email is already
`VerifiedEmail` it is a no-op success, so whenever a first call succeeds,
a second call on the resulting user also succeeds and leaves the user in
the same state; the email state machine never leaves the Verified state. -/
theorem grant_user_idempotent :
    (∀ u : User, (grant_user u).1 = .ok () →
        grant_user (grant_user u).2 = (.ok (), (grant_user u).2)) ∧
    (∀ (u : User) (v : VerifiedEmail), u.email = UserEmail.VerifiedEmail v →
        grant_user u = (.ok (), u)) := by
  refine ⟨?_, fun u v h => grant_user_of_verified u v h⟩
  intro u h
  cases hu : u.email with
  | VerifiedEmail v =>
    rw [grant_user_of_verified u v hu]
    exact grant_user_of_verified u v hu
  | UnverifiedEmail ue =>
    cases hv : verify_email ue with
    | error e =>
      rw [grant_user_of_unverified_err u ue e hu hv] at h
      simp at h
    | ok ve =>
      rw [grant_user_of_unverified_ok u ue ve hu hv]
      exact grant_user_of_verified _ ve rfl

/-- Witness for C6 on the sample user with email `"foo@ok.com"`. -/
theorem grant_user_idempotent_witness :
    grant_user (grant_user (User.new "Luca" none "Rossi" ⟨22⟩ ⟨"foo@ok.com"⟩)).2
      = (.ok (), (grant_user (User.new "Luca" none "Rossi" ⟨22⟩ ⟨"foo@ok.com"⟩)).2) :=
  grant_user_idempotent.1 (User.new "Luca" none "Rossi" ⟨22⟩ ⟨"foo@ok.com"⟩) rfl

/-- C7: `grant_user` mutates at most the `email` field — `name`,
`middle_name`, `surname` and `age` are unchanged by every call — and on
failure it propagates the verification error (`NotYetVerified`, the only
one `verify_email` produces) and returns the user entirely unmodified,
with the email still `UnverifiedEmail` wrapping the same string content. -/
theorem grant_user_frame :
    (∀ u : User,
        (grant_user u).2.name = u.name ∧
        (grant_user u).2.middle_name = u.middle_name ∧
        (grant_user u).2.surname = u.surname ∧
        (grant_user u).2.age = u.age) ∧
    (∀ (u : User) (e : Err), (grant_user u).1 = .error e →
        (grant_user u).2 = u ∧ e = Err.NotYetVerified ∧
        ∃ ue : UnverifiedEmail, u.email = UserEmail.UnverifiedEmail ue) := by
  constructor
  · intro u
    cases hu : u.email with
    | VerifiedEmail v =>
      rw [grant_user_of_verified u v hu]
      exact ⟨rfl, rfl, rfl, rfl⟩
    | UnverifiedEmail ue =>
      cases hv : verify_email ue with
      | error e =>
        rw [grant_user_of_unverified_err u ue e hu hv]
        exact ⟨rfl, rfl, rfl, rfl⟩
      | ok ve =>
        rw [grant_user_of_unverified_ok u ue ve hu hv]
        exact ⟨rfl, rfl, rfl, rfl⟩
  · intro u e h
    cases hu : u.email with
    | VerifiedEmail v =>
      rw [grant_user_of_verified u v hu] at h
      simp at h
    | UnverifiedEmail ue =>
      cases hv : verify_email ue with
      | ok ve =>
        rw [grant_user_of_unverified_ok u ue ve hu hv] at h
        simp at h
      | error e' =>
        rw [grant_user_of_unverified_err u ue e' hu hv] at h
        simp only [Except.error.injEq] at h
        refine ⟨?_, ?_, ue, rfl⟩
        · rw [grant_user_of_unverified_err u ue e' hu hv]
        · unfold verify_email at hv
          split at hv
          · simp at hv
          · simp only [Except.error.injEq] at hv
            rw [← h, ← hv]

/-- Witness for C7: the sample user with email `"foo@unverified.com"`,
on which the grant fails. -/
theorem grant_user_frame_witness :
    (grant_user (User.new "Luca" none "Rossi" ⟨22⟩ ⟨"foo@unverified.com"⟩)).2
        = User.new "Luca" none "Rossi" ⟨22⟩ ⟨"foo@unverified.com"⟩ ∧
    Err.NotYetVerified = Err.NotYetVerified ∧
    ∃ ue : UnverifiedEmail,
      (User.new "Luca" none "Rossi" ⟨22⟩ ⟨"foo@unverified.com"⟩).email
        = UserEmail.UnverifiedEmail ue :=
  grant_user_frame.2 (User.new "Luca" none "Rossi" ⟨22⟩ ⟨"foo@unverified.com"⟩)
    Err.NotYetVerified rfl

/-! ## Presentation: `get_fullname` -/

/-- `get_fullname`: builds the list `[Some(name), middle_name,
Some(surname)]`, flattens away the `None`s, and joins the remaining
strings with `" "`. -/
def get_fullname (user : User) : String :=
  String.intercalate " "
    (([some user.name, user.middle_name, some user.surname]).filterMap id)

/-- C9: `get_fullname` returns the name, then the middle name if present,
then the surname, joined by single spaces; when the middle name is absent
the middle segment is omitted entirely with no extra space. It is a total
function of the user with no failure case. -/
theorem get_fullname_spec (u : User) :
    (∀ m : String, u.middle_name = some m →
        get_fullname u = u.name ++ " " ++ m ++ " " ++ u.surname) ∧
    (u.middle_name = none → get_fullname u = u.name ++ " " ++ u.surname) := by
  constructor
  · intro m hm
    unfold get_fullname
    rw [hm]
    rfl
  · intro hm
    unfold get_fullname
    rw [hm]
    rfl

/-- Witness for C9 on the sample user (no middle name) and on a variant
with a middle name. -/
theorem get_fullname_spec_witness :
    get_fullname (User.new "Luca" none "Rossi" ⟨22⟩ ⟨"foo@ok.com"⟩) = "Luca Rossi" ∧
    get_fullname (User.new "Luca" (some "Maria") "Rossi" ⟨22⟩ ⟨"foo@ok.com"⟩)
      = "Luca Maria Rossi" :=
  ⟨(get_fullname_spec (User.new "Luca" none "Rossi" ⟨22⟩ ⟨"foo@ok.com"⟩)).2 rfl,
   (get_fullname_spec (User.new "Luca" (some "Maria") "Rossi" ⟨22⟩ ⟨"foo@ok.com"⟩)).1
      "Maria" rfl⟩

/-- C10: `get_fullname` performs no trimming or filtering of empty
strings: a present-but-empty middle name yields two consecutive spaces
between name and surname, and an empty name makes the result begin with a
space — an empty present field still contributes a join separator. -/
theorem get_fullname_no_trimming :
    (∀ u : User, u.middle_name = some "" →
        get_fullname u = u.name ++ "  " ++ u.surname) ∧
    (∀ u : User, u.name = "" → ∃ t : String, get_fullname u = " " ++ t) := by
  constructor
  · intro u hm
    unfold get_fullname
    rw [hm]
    dsimp only [List.filterMap]
    have : u.name ++ " " ++ "" ++ " " ++ u.surname = u.name ++ "  " ++ u.surname := by
      apply String.ext
      simp
    rw [← this]
    rfl
  · intro u hn
    cases hm : u.middle_name with
    | none =>
      refine ⟨u.surname, ?_⟩
      unfold get_fullname
      rw [hm, hn]
      apply String.ext
      simp [String.intercalate, String.intercalate.go]
    | some m =>
      refine ⟨m ++ " " ++ u.surname, ?_⟩
      unfold get_fullname
      rw [hm, hn]
      apply String.ext
      simp [String.intercalate, String.intercalate.go]

/-- Witness for C10 at concrete users. -/
theorem get_fullname_no_trimming_witness :
    get_fullname (User.new "Luca" (some "") "Rossi" ⟨22⟩ ⟨"foo@ok.com"⟩)
      = "Luca" ++ "  " ++ "Rossi" ∧
    ∃ t : String,
      get_fullname (User.new "" none "Rossi" ⟨22⟩ ⟨"foo@ok.com"⟩) = " " ++ t :=
  ⟨get_fullname_no_trimming.1 (User.new "Luca" (some "") "Rossi" ⟨22⟩ ⟨"foo@ok.com"⟩) rfl,
   get_fullname_no_trimming.2 (User.new "" none "Rossi" ⟨22⟩ ⟨"foo@ok.com"⟩) rfl⟩

/-! ## The final segment of the email pattern

The claim that the segment after the final dot must be purely alphabetic
does not hold of the regex: its final block is `\w+`, which also admits
digits and underscores. `"a@b.123"` and `"a@b.c_d"` are accepted. What the
regex does require is that the segment after the final dot consists of
word characters only. -/

/-- Counterexample to C8 as stated: `check_email` accepts `"a@b.123"` and
`"a@b.c_d"`, whose final segments are not purely alphabetic. -/
theorem check_email_tld_counterexample :
    check_email "a@b.123" = .ok ⟨"a@b.123"⟩ ∧
    check_email "a@b.c_d" = .ok ⟨"a@b.c_d"⟩ :=
  ⟨rfl, rfl⟩

/-- If two decompositions cut a list at an occurrence of `x` after which
`x` does not occur again, they cut at the same place. -/
theorem last_sep_unique (x : Char) :
    ∀ a b a' b' : List Char, a ++ x :: b = a' ++ x :: b' → x ∉ b → x ∉ b' →
      a = a' ∧ b = b' := by
  intro a
  induction a with
  | nil =>
    intro b a' b' h hb hb'
    cases a' with
    | nil =>
      simp only [List.nil_append, List.cons.injEq] at h
      exact ⟨rfl, h.2⟩
    | cons y t =>
      simp only [List.nil_append, List.cons_append, List.cons.injEq] at h
      rw [h.2] at hb
      exact absurd (List.mem_append_right t (List.mem_cons_self x b')) hb
  | cons y t ih =>
    intro b a' b' h hb hb'
    cases a' with
    | nil =>
      simp only [List.cons_append, List.nil_append, List.cons.injEq] at h
      rw [← h.2] at hb'
      exact absurd (List.mem_append_right t (List.mem_cons_self x b)) hb'
    | cons y' t' =>
      simp only [List.cons_append, List.cons.injEq] at h
      obtain ⟨rfl, ht⟩ := h
      obtain ⟨rfl, rfl⟩ := ih b t' b' ht hb hb'
      exact ⟨rfl, rfl⟩

/-- C8 (amended): the email pattern requires the segment after the final
dot to consist of word characters (letters, digits or underscore): every
string whose segment after the final dot contains a non-word character is
rejected by `check_email` with `InvalidEmailFormat`. (Digits and
underscores, however, are allowed there: the regex's final block is
`\w+`, not an alphabetic-only class.) -/
theorem check_email_requires_word_tld (s : String) (a b : List Char)
    (hs : s.data = a ++ '.' :: b) (hnb : '.' ∉ b)
    (hw : ∃ x ∈ b, isWordChar x = false) :
    check_email s = .error .InvalidEmailFormat := by
  have hn : ¬ (emailRegexAccepts s = true) := by
    intro hacc
    obtain ⟨p, q, r, hsp, -, -, -, -, -, hwr⟩ := (emailRegex_correct s).mp hacc
    have hr : '.' ∉ r := by
      intro hm
      exact absurd (hwr '.' hm) (by decide)
    have heq : a ++ '.' :: b = (p ++ '@' :: q) ++ '.' :: r := by
      rw [← hs, hsp]
      simp [List.cons_append, List.append_assoc]
    obtain ⟨-, rfl⟩ := last_sep_unique '.' a b (p ++ '@' :: q) r heq hnb hr
    obtain ⟨x, hxb, hxw⟩ := hw
    rw [hwr x hxb] at hxw
    simp at hxw
  unfold check_email
  rw [if_neg hn]

/-- Witness for the amended C8: `"a@b.c-d"`, whose segment after the final
dot contains the non-word character `'-'`, is rejected. -/
theorem check_email_requires_word_tld_witness :
    check_email "a@b.c-d" = .error .InvalidEmailFormat :=
  check_email_requires_word_tld "a@b.c-d" ['a', '@', 'b'] ['c', '-', 'd']
    (by decide) (by decide) ⟨'-', by decide, by decide⟩
